import Mathlib

/-!
# Quillmark core: registry/version resolution and render workflow

A shallow embedding of the quillmark core: the quill registry with its
version-selector resolution, the per-render workflow with its dynamic
asset/font overlays, and the artifact/render-result contract.

The core implementation of this repository is not present in the source
tree (only its Python tests, examples and fixtures are), so the
definitions below are modelled from the specification, faithful to its
words; each such definition's doc comment says so.
-/

/-- Modelled from the spec: a semantic version `major.minor.patch`
(the core's version type is not in the source tree). -/
structure Version where
  major : Nat
  minor : Nat
  patch : Nat
deriving DecidableEq, Repr

/-- Modelled from the spec: strict ordering of semantic versions,
lexicographic on (major, minor, patch). -/
def Version.lt (a b : Version) : Prop :=
  a.major < b.major ∨
    (a.major = b.major ∧ (a.minor < b.minor ∨
      (a.minor = b.minor ∧ a.patch < b.patch)))

instance (a b : Version) : Decidable (Version.lt a b) := by
  unfold Version.lt; infer_instance

/-- Modelled from the spec: non-strict ordering of semantic versions. -/
def Version.le (a b : Version) : Prop :=
  Version.lt a b ∨ a = b

instance (a b : Version) : Decidable (Version.le a b) := by
  unfold Version.le; infer_instance

/-- Bytes of an asset, font or artifact, as a list of byte values. -/
abbrev Bytes := List Nat

/-- Modelled from the spec: an immutable, loaded template package: name,
semantic version, template source, and its bundled default assets/fonts
(the core's `Quill` type is not in the source tree). -/
structure Quill where
  name : String
  version : Version
  template_source : String
  static_assets : List (String × Bytes)
  static_fonts : List (String × Bytes)
deriving DecidableEq, Repr

/-- Modelled from the spec: the process-wide store mapping quill name to
the ordered (version-ascending) list of registered Quill versions (the
core's `Registry` type is not in the source tree). -/
structure Registry where
  entries : List (String × List Quill)
deriving DecidableEq, Repr

/-- Modelled from the spec: the empty registry. -/
def Registry.empty : Registry := ⟨[]⟩

/-- Modelled from the spec: insert a quill into a version-ascending list,
replacing the entry with the same version when one is present. -/
def insertVersion (q : Quill) : List Quill → List Quill
  | [] => [q]
  | q' :: rest =>
    if q'.version = q.version then q :: rest
    else if Version.lt q.version q'.version then q :: q' :: rest
    else q' :: insertVersion q rest

/-- Modelled from the spec: update the name-keyed entry list with a new
quill, creating the name's entry when absent. -/
def updateEntries (q : Quill) : List (String × List Quill) → List (String × List Quill)
  | [] => [(q.name, [q])]
  | (n, qs) :: rest =>
    if n = q.name then (n, insertVersion q qs) :: rest
    else (n, qs) :: updateEntries q rest

/-- Modelled from the spec: `register_quill(quill)` inserts or replaces a
(name, version) entry; no return value (state-passing here); never fails
for well-formed Quills. -/
def Registry.register_quill (reg : Registry) (q : Quill) : Registry :=
  ⟨updateEntries q reg.entries⟩

/-- Modelled from the spec: the registered quills under a name, in
version-ascending order; empty when the name is unknown. -/
def Registry.quillsUnder (reg : Registry) (n : String) : List Quill :=
  match reg.entries.find? (fun p => decide (p.1 = n)) with
  | some p => p.2
  | none => []

/-- Modelled from the spec: a parsed version selector: `NAME`,
`NAME@X.Y.Z` (exact) or `NAME@X` (major-only). -/
inductive Selector where
  | bare (name : String)
  | exact (name : String) (version : Version)
  | major (name : String) (major : Nat)
deriving DecidableEq, Repr

/-- Split a character list on a separator character. -/
def splitOnChar (c : Char) : List Char → List (List Char)
  | [] => [[]]
  | x :: rest =>
    let r := splitOnChar c rest
    if x = c then [] :: r
    else
      match r with
      | [] => [[x]]
      | h :: t => (x :: h) :: t

/-- The numeric value of a decimal digit character, if it is one. -/
def digitVal? (ch : Char) : Option Nat :=
  if '0' ≤ ch ∧ ch ≤ '9' then some (ch.toNat - '0'.toNat) else none

/-- Accumulating decimal parser over a character list. -/
def parseNatAux (acc : Nat) : List Char → Option Nat
  | [] => some acc
  | ch :: rest =>
    match digitVal? ch with
    | some d => parseNatAux (acc * 10 + d) rest
    | none => none

/-- Parse a non-empty all-digit character list as a natural number. -/
def parseNatChars : List Char → Option Nat
  | [] => none
  | l => parseNatAux 0 l

/-- Modelled from the spec: parse the selector grammar `NAME` or
`NAME@VERSION_SPEC`, where `VERSION_SPEC` is `X.Y.Z` or `X`; anything
else is malformed. -/
def parseSelector (s : String) : Option Selector :=
  match splitOnChar '@' s.data with
  | [n] =>
    if n = [] then none else some (.bare (String.mk n))
  | [n, spec] =>
    if n = [] then none
    else
      match splitOnChar '.' spec with
      | [x] => (parseNatChars x).map (fun m => Selector.major (String.mk n) m)
      | [x, y, z] =>
        match parseNatChars x, parseNatChars y, parseNatChars z with
        | some a, some b, some c => some (.exact (String.mk n) ⟨a, b, c⟩)
        | _, _, _ => none
      | _ => none
  | _ => none

/-- Modelled from the spec: resolve a parsed selector against the
registry. Full-version lookup is an exact probe; major-version and
bare-name lookups scan from the highest version downward and return the
first structural match. -/
def Registry.resolve (reg : Registry) : Selector → Option Quill
  | .bare n => (reg.quillsUnder n).reverse.head?
  | .exact n v => (reg.quillsUnder n).find? (fun q => decide (q.version = v))
  | .major n m => (reg.quillsUnder n).reverse.find? (fun q => decide (q.version.major = m))

/-- Modelled from the spec: `get_quill(selector) -> Quill | absent`;
resolution never raises, absence (`none`) is the signal for not found. -/
def Registry.get_quill (reg : Registry) (s : String) : Option Quill :=
  match parseSelector s with
  | none => none
  | some sel => reg.resolve sel

/-- Modelled from the spec: well-formedness of a registry, maintained by
registration: entry keys are distinct, each entry holds only quills of
its own name, and each entry's versions are strictly ascending. -/
def Registry.WF (reg : Registry) : Prop :=
  (reg.entries.map Prod.fst).Nodup ∧
    ∀ p ∈ reg.entries,
      (∀ q ∈ p.2, q.name = p.1) ∧ p.2.Pairwise (fun a b => Version.lt a.version b.version)

instance (reg : Registry) : Decidable reg.WF := by
  unfold Registry.WF; infer_instance

/-- Modelled from the spec: the error taxonomy of the core. -/
inductive QErr where
  | notFound (selector : String)
  | assetCollision (filename : String)
  | fontCollision (filename : String)
  | malformedSelector (selector : String)
  | backendRenderError (msg : String)
deriving DecidableEq, Repr

/-- Modelled from the spec: a structured input document: front-matter
fields plus a body; consumed unchanged by the workflow. -/
structure ParsedDocument where
  fields : List (String × String)
  body : String
deriving DecidableEq, Repr

/-- Modelled from the spec: the closed output-format variant. -/
inductive OutputFormat where
  | PDF
  | SVG
deriving DecidableEq, Repr

/-- Modelled from the spec: the closed OutputFormat → MIME table. -/
def mimeFor : OutputFormat → String
  | .PDF => "application/pdf"
  | .SVG => "image/svg+xml"

/-- Modelled from the spec: a produced binary payload with its MIME tag. -/
structure Artifact where
  bytes : Bytes
  mime_type : String
deriving DecidableEq, Repr

/-- Modelled from the spec: the output contract: an ordered sequence of
artifacts plus the requested output format. -/
structure RenderResult where
  artifacts : List Artifact
  output_format : OutputFormat
deriving DecidableEq, Repr

/-- Modelled from the spec: a per-render session bound to one resolved
Quill, owning the caller-supplied dynamic overlays (insertion order). -/
structure Workflow where
  quill : Quill
  dynamic_assets : List (String × Bytes)
  dynamic_fonts : List (String × Bytes)
deriving DecidableEq, Repr

/-- Modelled from the spec: `workflow(selector)` resolves through the
registry; absence is a reportable error here, unlike `get_quill`. -/
def Registry.workflow (reg : Registry) (s : String) : Except QErr Workflow :=
  match reg.get_quill s with
  | some q => .ok ⟨q, [], []⟩
  | none => .error (.notFound s)

/-- Modelled from the spec: the engine constructor used by the examples,
`workflow_from_quill_name(name)`: takes a bare quill name (no selector
syntax), resolves it to the highest registered version and builds a
workflow; fails when the name has no registered quill. -/
def Registry.workflow_from_quill_name (reg : Registry) (n : String) : Except QErr Workflow :=
  match (reg.quillsUnder n).reverse.head? with
  | some q => .ok ⟨q, [], []⟩
  | none => .error (.notFound n)

/-- Modelled from the spec: `add_asset(filename, bytes)` fails with an
asset collision if the filename already exists in `dynamic_assets`;
otherwise appends to the overlay. -/
def Workflow.add_asset (w : Workflow) (filename : String) (b : Bytes) : Except QErr Workflow :=
  match w.dynamic_assets.lookup filename with
  | some _ => .error (.assetCollision filename)
  | none => .ok { w with dynamic_assets := w.dynamic_assets ++ [(filename, b)] }

/-- Modelled from the spec: `add_font(filename, bytes)`, identical
contract on `dynamic_fonts`. -/
def Workflow.add_font (w : Workflow) (filename : String) (b : Bytes) : Except QErr Workflow :=
  match w.dynamic_fonts.lookup filename with
  | some _ => .error (.fontCollision filename)
  | none => .ok { w with dynamic_fonts := w.dynamic_fonts ++ [(filename, b)] }

/-- Modelled from the spec: `add_assets(pairs)` applies `add_asset` for
each pair in order; the first collision aborts the batch (entries
processed before the collision remain applied) and reports the error. -/
def Workflow.add_assets (w : Workflow) : List (String × Bytes) → Workflow × Option QErr
  | [] => (w, none)
  | (f, b) :: rest =>
    match w.add_asset f b with
    | .error e => (w, some e)
    | .ok w' => w'.add_assets rest

/-- Modelled from the spec: `add_fonts(pairs)`, identical contract on
`dynamic_fonts`. -/
def Workflow.add_fonts (w : Workflow) : List (String × Bytes) → Workflow × Option QErr
  | [] => (w, none)
  | (f, b) :: rest =>
    match w.add_font f b with
    | .error e => (w, some e)
    | .ok w' => w'.add_fonts rest

/-- Modelled from the spec: `clear_assets()` empties the asset overlay
unconditionally. -/
def Workflow.clear_assets (w : Workflow) : Workflow :=
  { w with dynamic_assets := [] }

/-- Modelled from the spec: `clear_fonts()` empties the font overlay
unconditionally. -/
def Workflow.clear_fonts (w : Workflow) : Workflow :=
  { w with dynamic_fonts := [] }

/-- Modelled from the spec: `dynamic_asset_names()`, the overlay's
filenames in insertion order. -/
def Workflow.dynamic_asset_names (w : Workflow) : List String :=
  w.dynamic_assets.map Prod.fst

/-- Modelled from the spec: `dynamic_font_names()`, the overlay's
filenames in insertion order. -/
def Workflow.dynamic_font_names (w : Workflow) : List String :=
  w.dynamic_fonts.map Prod.fst

/-- Modelled from the spec: the effective asset set handed to the
backend: static_assets ∪ dynamic_assets, the dynamic entry taking
precedence on a shared filename. -/
def Workflow.effective_assets (w : Workflow) : List (String × Bytes) :=
  w.quill.static_assets.filter (fun p => (w.dynamic_assets.lookup p.1).isNone)
    ++ w.dynamic_assets

/-- Modelled from the spec: the effective font set, same merge rule. -/
def Workflow.effective_fonts (w : Workflow) : List (String × Bytes) :=
  w.quill.static_fonts.filter (fun p => (w.dynamic_fonts.lookup p.1).isNone)
    ++ w.dynamic_fonts

/-- Modelled from the spec: the rendering backend, an external
collaborator: template source, merged assets, merged fonts, document and
format in; raw byte buffers (or a diagnostic) out. -/
def RenderBackend :=
  String → List (String × Bytes) → List (String × Bytes) →
    ParsedDocument → OutputFormat → Except String (List Bytes)

/-- Modelled from the spec: `render(document, output_format)`: merge
static and dynamic resources, delegate to the backend, wrap its buffers
into MIME-tagged artifacts, and return a RenderResult carrying the
original requested output format. -/
def Workflow.render (backend : RenderBackend) (w : Workflow)
    (doc : ParsedDocument) (fmt : OutputFormat) : Except QErr RenderResult :=
  match backend w.quill.template_source w.effective_assets w.effective_fonts doc fmt with
  | .error msg => .error (.backendRenderError msg)
  | .ok bufs =>
    .ok { artifacts := bufs.map (fun b => { bytes := b, mime_type := mimeFor fmt }),
          output_format := fmt }

/-- All quills registered in the registry, over all names. -/
def Registry.allQuills (reg : Registry) : List Quill :=
  (reg.entries.map Prod.snd).flatten

/-- Concrete fixture quill mirroring the taro template, version 1.0.0. -/
def taroQ1 : Quill :=
  ⟨"taro", ⟨1, 0, 0⟩, "tmplA", [("logo.png", [1, 2]), ("bg.png", [3])], [("serif.ttf", [4])]⟩

/-- Concrete fixture quill, taro version 1.1.0. -/
def taroQ2 : Quill :=
  ⟨"taro", ⟨1, 1, 0⟩, "tmplB", [("logo.png", [5])], []⟩

/-- Concrete fixture quill, taro version 2.0.0. -/
def taroQ3 : Quill :=
  ⟨"taro", ⟨2, 0, 0⟩, "tmplC", [], []⟩

/-- Concrete fixture registry holding three taro versions. -/
def regW : Registry :=
  ((Registry.empty.register_quill taroQ1).register_quill taroQ2).register_quill taroQ3

/-- Concrete fixture workflow bound to taro 1.0.0 with one dynamic asset
(shadowing the static `logo.png`) and one dynamic font. -/
def wW : Workflow :=
  ⟨taroQ1, [("logo.png", [9]), ("extra.png", [7])], [("mono.ttf", [8])]⟩

/-- Concrete fixture document. -/
def docW : ParsedDocument := ⟨[("title", "Hello"), ("author", "Alice")], "# Intro"⟩

/-- Concrete fixture backend producing zero artifacts. -/
def backendW : RenderBackend := fun _ _ _ _ _ => Except.ok []

/-- Concrete fixture backend producing two artifacts. -/
def backendW2 : RenderBackend := fun _ _ _ _ _ => Except.ok [[1, 2], [3]]

example : parseSelector "taro" = some (.bare "taro") := by decide
example : parseSelector "taro@1.0.0" = some (.exact "taro" ⟨1, 0, 0⟩) := by decide
example : parseSelector "taro@1" = some (.major "taro" 1) := by decide
example : parseSelector "taro@99.99" = none := by decide
example : parseSelector "@1.0.0" = none := by decide

/-! ## Order lemmas for versions -/

theorem Version.lt_irrefl (a : Version) : ¬ Version.lt a a := by
  cases a; simp [Version.lt]

theorem Version.lt_trans {a b c : Version} (h1 : Version.lt a b) (h2 : Version.lt b c) :
    Version.lt a c := by
  cases a; cases b; cases c
  simp only [Version.lt] at *
  omega

theorem Version.lt_total {a b : Version} (h1 : ¬ Version.lt a b) (h2 : ¬ Version.lt b a) :
    a = b := by
  cases a; cases b
  simp only [Version.lt, Version.mk.injEq] at *
  omega

theorem Version.le_refl (a : Version) : Version.le a a := Or.inr rfl

theorem Version.le_of_lt {a b : Version} (h : Version.lt a b) : Version.le a b := Or.inl h

theorem Version.ne_of_lt {a b : Version} (h : Version.lt a b) : a ≠ b := by
  intro he; subst he; exact Version.lt_irrefl a h

/-! ## insertVersion lemmas -/


theorem Version.lt_of_not_lt {a b : Version} (h1 : ¬ Version.lt a b) (h2 : a ≠ b) :
    Version.lt b a := by
  by_contra h3
  exact h2 (Version.lt_total h1 h3)

theorem mem_insertVersion {x q : Quill} {l : List Quill} (h : x ∈ insertVersion q l) :
    x = q ∨ x ∈ l := by
  induction l with
  | nil => simpa [insertVersion] using h
  | cons q' rest ih =>
    by_cases hv : q'.version = q.version
    · simp only [insertVersion, if_pos hv, List.mem_cons] at h
      rcases h with h | h
      · exact Or.inl h
      · exact Or.inr (List.mem_cons_of_mem _ h)
    · by_cases hl : Version.lt q.version q'.version
      · simp only [insertVersion, if_neg hv, if_pos hl, List.mem_cons] at h
        rcases h with h | h | h
        · exact Or.inl h
        · exact Or.inr (by simp [h])
        · exact Or.inr (List.mem_cons_of_mem _ h)
      · simp only [insertVersion, if_neg hv, if_neg hl, List.mem_cons] at h
        rcases h with h | h
        · exact Or.inr (by simp [h])
        · rcases ih h with h' | h'
          · exact Or.inl h'
          · exact Or.inr (List.mem_cons_of_mem _ h')

theorem self_mem_insertVersion (q : Quill) (l : List Quill) : q ∈ insertVersion q l := by
  induction l with
  | nil => simp [insertVersion]
  | cons q' rest ih =>
    by_cases hv : q'.version = q.version
    · simp [insertVersion, if_pos hv]
    · by_cases hl : Version.lt q.version q'.version
      · simp [insertVersion, if_neg hv, if_pos hl]
      · simp only [insertVersion, if_neg hv, if_neg hl, List.mem_cons]
        exact Or.inr ih

theorem insertVersion_pairwise {q : Quill} {l : List Quill}
    (h : l.Pairwise (fun a b => Version.lt a.version b.version)) :
    (insertVersion q l).Pairwise (fun a b => Version.lt a.version b.version) := by
  induction l with
  | nil => simp [insertVersion]
  | cons q' rest ih =>
    rcases List.pairwise_cons.mp h with ⟨hall, hrest⟩
    by_cases hv : q'.version = q.version
    · rw [insertVersion, if_pos hv]
      exact List.pairwise_cons.mpr ⟨fun x hx => hv ▸ hall x hx, hrest⟩
    · by_cases hl : Version.lt q.version q'.version
      · rw [insertVersion, if_neg hv, if_pos hl]
        refine List.pairwise_cons.mpr ⟨?_, h⟩
        intro x hx
        rcases List.mem_cons.mp hx with rfl | hx
        · exact hl
        · exact Version.lt_trans hl (hall x hx)
      · rw [insertVersion, if_neg hv, if_neg hl]
        refine List.pairwise_cons.mpr ⟨?_, ih hrest⟩
        intro x hx
        rcases mem_insertVersion hx with rfl | hx
        · exact Version.lt_of_not_lt hl fun he => hv he.symm
        · exact hall x hx

theorem mem_insertVersion_version {x q : Quill} {l : List Quill}
    (hp : l.Pairwise (fun a b => Version.lt a.version b.version))
    (h : x ∈ insertVersion q l) :
    x = q ∨ (x ∈ l ∧ x.version ≠ q.version) := by
  induction l with
  | nil => simpa [insertVersion] using h
  | cons q' rest ih =>
    rcases List.pairwise_cons.mp hp with ⟨hall, hrest⟩
    by_cases hv : q'.version = q.version
    · simp only [insertVersion, if_pos hv, List.mem_cons] at h
      rcases h with h | h
      · exact Or.inl h
      · refine Or.inr ⟨List.mem_cons_of_mem _ h, fun he => ?_⟩
        have hlt := hall x h
        rw [hv, ← he] at hlt
        exact Version.lt_irrefl _ hlt
    · by_cases hl : Version.lt q.version q'.version
      · simp only [insertVersion, if_neg hv, if_pos hl, List.mem_cons] at h
        rcases h with h | h | h
        · exact Or.inl h
        · refine Or.inr ⟨by simp [h], fun he => ?_⟩
          subst h
          exact hv he
        · refine Or.inr ⟨List.mem_cons_of_mem _ h, fun he => ?_⟩
          have hlt := Version.lt_trans hl (hall x h)
          rw [he] at hlt
          exact Version.lt_irrefl _ hlt
      · simp only [insertVersion, if_neg hv, if_neg hl, List.mem_cons] at h
        rcases h with h | h
        · refine Or.inr ⟨by simp [h], fun he => ?_⟩
          subst h
          exact hv he
        · rcases ih hrest h with h' | ⟨hx, hver⟩
          · exact Or.inl h'
          · exact Or.inr ⟨List.mem_cons_of_mem _ hx, hver⟩

theorem insertVersion_names {q : Quill} {l : List Quill} {n : String}
    (hq : q.name = n) (hl : ∀ x ∈ l, x.name = n) :
    ∀ x ∈ insertVersion q l, x.name = n := by
  intro x hx
  rcases mem_insertVersion hx with rfl | hx
  · exact hq
  · exact hl x hx

/-! ## Registry registration lemmas -/

theorem mem_keys_updateEntries {q : Quill} {m : String} :
    ∀ {es : List (String × List Quill)},
      m ∈ (updateEntries q es).map Prod.fst ↔ m ∈ es.map Prod.fst ∨ m = q.name := by
  intro es
  induction es with
  | nil => simp [updateEntries]
  | cons p rest ih =>
    obtain ⟨n, qs⟩ := p
    by_cases hn : n = q.name
    · subst hn
      simp [updateEntries]
      tauto
    · simp only [updateEntries, if_neg hn, List.map_cons, List.mem_cons, ih]
      tauto

theorem keys_nodup_updateEntries {q : Quill} {es : List (String × List Quill)}
    (h : (es.map Prod.fst).Nodup) : ((updateEntries q es).map Prod.fst).Nodup := by
  induction es with
  | nil => simp [updateEntries]
  | cons p rest ih =>
    obtain ⟨n, qs⟩ := p
    rcases List.nodup_cons.mp h with ⟨hn, hrest⟩
    by_cases he : n = q.name
    · subst he
      simpa [updateEntries] using List.nodup_cons.mpr ⟨hn, hrest⟩
    · simp only [updateEntries, if_neg he, List.map_cons]
      refine List.nodup_cons.mpr ⟨?_, ih hrest⟩
      rw [mem_keys_updateEntries]
      rintro (hc | hc)
      · exact hn hc
      · exact he hc

theorem updateEntries_entryOK {q : Quill} {es : List (String × List Quill)}
    (h : ∀ p ∈ es,
      (∀ x ∈ p.2, x.name = p.1) ∧
        p.2.Pairwise (fun a b => Version.lt a.version b.version)) :
    ∀ p ∈ updateEntries q es,
      (∀ x ∈ p.2, x.name = p.1) ∧
        p.2.Pairwise (fun a b => Version.lt a.version b.version) := by
  induction es with
  | nil =>
    intro p hp
    simp only [updateEntries, List.mem_singleton] at hp
    subst hp
    exact ⟨by simp, by simp⟩
  | cons e rest ih =>
    obtain ⟨n, qs⟩ := e
    have hhead := h (n, qs) (List.mem_cons_self _ _)
    have htail := fun p hp => h p (List.mem_cons_of_mem _ hp)
    intro p hp
    by_cases he : n = q.name
    · rw [updateEntries, if_pos he] at hp
      rcases List.mem_cons.mp hp with rfl | hp
      · exact ⟨insertVersion_names (he ▸ rfl) hhead.1, insertVersion_pairwise hhead.2⟩
      · exact htail p hp
    · rw [updateEntries, if_neg he] at hp
      rcases List.mem_cons.mp hp with rfl | hp
      · exact hhead
      · exact ih htail p hp

theorem Registry.empty_WF : Registry.empty.WF := by
  constructor <;> simp [Registry.empty]

theorem Registry.register_WF (reg : Registry) (q : Quill) (h : reg.WF) :
    (reg.register_quill q).WF :=
  ⟨keys_nodup_updateEntries h.1, updateEntries_entryOK h.2⟩

theorem quillsUnder_register_self (reg : Registry) (q : Quill) :
    (reg.register_quill q).quillsUnder q.name = insertVersion q (reg.quillsUnder q.name) := by
  obtain ⟨es⟩ := reg
  show Registry.quillsUnder ⟨updateEntries q es⟩ q.name = _
  induction es with
  | nil => simp [Registry.quillsUnder, updateEntries, List.find?, insertVersion]
  | cons e rest ih =>
    obtain ⟨n, qs⟩ := e
    by_cases he : n = q.name
    · subst he
      simp [Registry.quillsUnder, updateEntries, List.find?]
    · simp only [Registry.quillsUnder, updateEntries, if_neg he, List.find?,
        decide_eq_true_eq, if_neg, he, decide_False] at *
      simpa [he] using ih

theorem quillsUnder_register_other (reg : Registry) (q : Quill) (n : String)
    (hn : n ≠ q.name) :
    (reg.register_quill q).quillsUnder n = reg.quillsUnder n := by
  obtain ⟨es⟩ := reg
  show Registry.quillsUnder ⟨updateEntries q es⟩ n = _
  induction es with
  | nil => simp [Registry.quillsUnder, updateEntries, List.find?, Ne.symm hn]
  | cons e rest ih =>
    obtain ⟨m, qs⟩ := e
    by_cases he : m = q.name
    · subst he
      simp [Registry.quillsUnder, updateEntries, List.find?, Ne.symm hn]
    · by_cases hm : m = n
      · subst hm
        simp [Registry.quillsUnder, updateEntries, if_neg he, List.find?]
      · simp only [Registry.quillsUnder, updateEntries, if_neg he, List.find?,
          decide_eq_true_eq] at *
        simpa [hm] using ih

theorem quillsUnder_names {reg : Registry} (h : reg.WF) (n : String) :
    ∀ x ∈ reg.quillsUnder n, x.name = n := by
  unfold Registry.quillsUnder
  cases hf : reg.entries.find? (fun p => decide (p.1 = n)) with
  | none => simp
  | some p =>
    have hp := List.mem_of_find?_eq_some hf
    have hn : p.1 = n := by
      have := List.find?_some hf
      simpa using this
    intro x hx
    rw [← hn]
    exact (h.2 p hp).1 x hx

theorem quillsUnder_pairwise {reg : Registry} (h : reg.WF) (n : String) :
    (reg.quillsUnder n).Pairwise (fun a b => Version.lt a.version b.version) := by
  unfold Registry.quillsUnder
  cases hf : reg.entries.find? (fun p => decide (p.1 = n)) with
  | none => simp
  | some p => exact (h.2 p (List.mem_of_find?_eq_some hf)).2

theorem quillsUnder_empty (n : String) : Registry.empty.quillsUnder n = [] := rfl

/-! ## Resolution lemmas on version-sorted lists -/

theorem head?_reverse_max {l : List Quill} {q : Quill}
    (hp : l.Pairwise (fun a b => Version.lt a.version b.version))
    (h : l.reverse.head? = some q) :
    q ∈ l ∧ ∀ x ∈ l, Version.le x.version q.version := by
  induction l with
  | nil => simp at h
  | cons x rest ih =>
    rcases List.pairwise_cons.mp hp with ⟨hall, hrest⟩
    rw [List.reverse_cons] at h
    cases hr : rest.reverse.head? with
    | none =>
      have hnil : rest.reverse = [] := by
        cases hrev : rest.reverse with
        | nil => rfl
        | cons a t => rw [hrev] at hr; simp at hr
      have : rest = [] := List.reverse_eq_nil_iff.mp hnil
      subst this
      simp at h
      subst h
      exact ⟨List.mem_cons_self _ _, by
        intro y hy
        rcases List.mem_cons.mp hy with rfl | hy
        · exact Version.le_refl _
        · simp at hy⟩
    | some q' =>
      have hq' : q = q' := by
        rw [List.head?_append, hr] at h
        simpa using h.symm
      subst hq'
      rcases ih hrest hr with ⟨hmem, hmax⟩
      refine ⟨List.mem_cons_of_mem _ hmem, ?_⟩
      intro y hy
      rcases List.mem_cons.mp hy with rfl | hy
      · exact Version.le_of_lt (hall q hmem)
      · exact hmax y hy

theorem head?_reverse_isSome {l : List Quill} (h : l ≠ []) :
    ∃ q, l.reverse.head? = some q := by
  cases hrev : l.reverse with
  | nil => exact absurd (List.reverse_eq_nil_iff.mp hrev) h
  | cons a t => exact ⟨a, rfl⟩

theorem find?_reverse_max {l : List Quill} {q : Quill} {p : Quill → Bool}
    (hp : l.Pairwise (fun a b => Version.lt a.version b.version))
    (h : l.reverse.find? p = some q) :
    q ∈ l ∧ p q = true ∧ ∀ x ∈ l, p x = true → Version.le x.version q.version := by
  induction l with
  | nil => simp at h
  | cons x rest ih =>
    rcases List.pairwise_cons.mp hp with ⟨hall, hrest⟩
    rw [List.reverse_cons, List.find?_append] at h
    cases hr : rest.reverse.find? p with
    | some q' =>
      rw [hr] at h
      simp only [Option.or_some] at h
      cases h
      rcases ih hrest hr with ⟨hmem, hpq, hmax⟩
      refine ⟨List.mem_cons_of_mem _ hmem, hpq, ?_⟩
      intro y hy hpy
      rcases List.mem_cons.mp hy with rfl | hy
      · exact Version.le_of_lt (hall _ hmem)
      · exact hmax y hy hpy
    | none =>
      rw [hr] at h
      simp only [Option.none_or] at h
      have hnone : ∀ z ∈ rest, ¬ p z := by
        intro z hz
        exact List.find?_eq_none.mp hr z (List.mem_reverse.mpr hz)
      cases hpx : p x with
      | true =>
        rw [List.find?_cons_of_pos _ hpx] at h
        cases h
        refine ⟨List.mem_cons_self _ _, hpx, ?_⟩
        intro y hy hpy
        rcases List.mem_cons.mp hy with rfl | hy
        · exact Version.le_refl _
        · exact absurd hpy (by simpa using hnone y hy)
      | false =>
        rw [List.find?_cons_of_neg _ (by simp [hpx])] at h
        simp at h

theorem find?_reverse_isSome {l : List Quill} {x : Quill} {p : Quill → Bool}
    (hx : x ∈ l) (hpx : p x = true) :
    ∃ q, l.reverse.find? p = some q := by
  cases hf : l.reverse.find? p with
  | none =>
    exact absurd hpx (by simpa using List.find?_eq_none.mp hf x (List.mem_reverse.mpr hx))
  | some q => exact ⟨q, rfl⟩

theorem find?_version_eq {l : List Quill} {q : Quill} {v : Version}
    (hp : l.Pairwise (fun a b => Version.lt a.version b.version))
    (hq : q ∈ l) (hv : q.version = v) :
    l.find? (fun x => decide (x.version = v)) = some q := by
  induction l with
  | nil => simp at hq
  | cons y rest ih =>
    rcases List.pairwise_cons.mp hp with ⟨hall, hrest⟩
    by_cases hy : y.version = v
    · rw [List.find?_cons_of_pos _ (by simp [hy])]
      rcases List.mem_cons.mp hq with rfl | hq
      · rfl
      · have hlt := hall q hq
        rw [hy, hv] at hlt
        exact absurd hlt (Version.lt_irrefl _)
    · rw [List.find?_cons_of_neg _ (by simp [hy])]
      rcases List.mem_cons.mp hq with rfl | hq
      · exact absurd hv hy
      · exact ih hrest hq

theorem find?_version_none {l : List Quill} {v : Version}
    (h : ∀ q ∈ l, q.version ≠ v) :
    l.find? (fun x => decide (x.version = v)) = none :=
  List.find?_eq_none.mpr (fun x hx => by simpa using h x hx)

/-! ## Overlay and merge lemmas -/

theorem lookup_cons (a k : String) (b : Bytes) (es : List (String × Bytes)) :
    ((k, b) :: es).lookup a = if a = k then some b else es.lookup a := by
  simp only [List.lookup]
  cases hbe : a == k
  · have h : ¬ a = k := by simpa using hbe
    simp [h]
  · have h : a = k := by simpa using hbe
    simp [h]

theorem lookup_isSome_iff_mem_keys (es : List (String × Bytes)) (f : String) :
    (es.lookup f).isSome ↔ f ∈ es.map Prod.fst := by
  induction es with
  | nil => simp
  | cons p rest ih =>
    obtain ⟨k, b⟩ := p
    by_cases h : f = k
    · subst h
      simp [lookup_cons]
    · simp [lookup_cons, h, ih, Ne.symm h]

theorem lookup_filter_dynNone (statics dyn : List (String × Bytes)) (f : String) :
    (statics.filter (fun p => (dyn.lookup p.1).isNone)).lookup f =
      if (dyn.lookup f).isNone then statics.lookup f else none := by
  induction statics with
  | nil => simp
  | cons p rest ih =>
    obtain ⟨k, b⟩ := p
    by_cases hkf : f = k
    · subst hkf
      by_cases hk : (dyn.lookup f).isNone
      · rw [List.filter_cons_of_pos (by simpa using hk), lookup_cons, if_pos rfl,
          if_pos hk, lookup_cons, if_pos rfl]
      · rw [List.filter_cons_of_neg (by simpa using hk), ih, if_neg hk, if_neg hk]
    · by_cases hk : (dyn.lookup k).isNone
      · rw [List.filter_cons_of_pos (by simpa using hk), lookup_cons, if_neg hkf, ih,
          lookup_cons, if_neg hkf]
      · rw [List.filter_cons_of_neg (by simpa using hk), ih, lookup_cons, if_neg hkf]

theorem effective_assets_lookup (w : Workflow) (f : String) :
    w.effective_assets.lookup f =
      (w.dynamic_assets.lookup f).or (w.quill.static_assets.lookup f) := by
  unfold Workflow.effective_assets
  rw [List.lookup_append, lookup_filter_dynNone]
  cases hd : w.dynamic_assets.lookup f with
  | none => simp
  | some b => simp

theorem effective_fonts_lookup (w : Workflow) (f : String) :
    w.effective_fonts.lookup f =
      (w.dynamic_fonts.lookup f).or (w.quill.static_fonts.lookup f) := by
  unfold Workflow.effective_fonts
  rw [List.lookup_append, lookup_filter_dynNone]
  cases hd : w.dynamic_fonts.lookup f with
  | none => simp
  | some b => simp

/-! ## Workflow mutator lemmas -/

theorem add_asset_of_fresh {w : Workflow} {f : String} {b : Bytes}
    (h : w.dynamic_assets.lookup f = none) :
    w.add_asset f b = .ok { w with dynamic_assets := w.dynamic_assets ++ [(f, b)] } := by
  unfold Workflow.add_asset
  rw [h]

theorem add_font_of_fresh {w : Workflow} {f : String} {b : Bytes}
    (h : w.dynamic_fonts.lookup f = none) :
    w.add_font f b = .ok { w with dynamic_fonts := w.dynamic_fonts ++ [(f, b)] } := by
  unfold Workflow.add_font
  rw [h]

theorem add_asset_of_present {w : Workflow} {f : String} {b old : Bytes}
    (h : w.dynamic_assets.lookup f = some old) :
    w.add_asset f b = .error (.assetCollision f) := by
  unfold Workflow.add_asset
  rw [h]

theorem add_font_of_present {w : Workflow} {f : String} {b old : Bytes}
    (h : w.dynamic_fonts.lookup f = some old) :
    w.add_font f b = .error (.fontCollision f) := by
  unfold Workflow.add_font
  rw [h]

theorem add_assets_ok_shape {ps : List (String × Bytes)} :
    ∀ {w w' : Workflow}, w.add_assets ps = (w', none) →
      w'.quill = w.quill ∧ w'.dynamic_assets = w.dynamic_assets ++ ps ∧
        w'.dynamic_fonts = w.dynamic_fonts := by
  induction ps with
  | nil =>
    intro w w' h
    simp only [Workflow.add_assets] at h
    cases h
    exact ⟨rfl, by simp, rfl⟩
  | cons p rest ih =>
    intro w w' h
    obtain ⟨f, b⟩ := p
    cases hl : w.dynamic_assets.lookup f with
    | some old =>
      rw [Workflow.add_assets, add_asset_of_present hl] at h
      simp at h
    | none =>
      rw [Workflow.add_assets, add_asset_of_fresh hl] at h
      rcases ih h with ⟨hq, ha, hf⟩
      exact ⟨hq, by simp [ha], hf⟩

theorem add_fonts_ok_shape {ps : List (String × Bytes)} :
    ∀ {w w' : Workflow}, w.add_fonts ps = (w', none) →
      w'.quill = w.quill ∧ w'.dynamic_fonts = w.dynamic_fonts ++ ps ∧
        w'.dynamic_assets = w.dynamic_assets := by
  induction ps with
  | nil =>
    intro w w' h
    simp only [Workflow.add_fonts] at h
    cases h
    exact ⟨rfl, by simp, rfl⟩
  | cons p rest ih =>
    intro w w' h
    obtain ⟨f, b⟩ := p
    cases hl : w.dynamic_fonts.lookup f with
    | some old =>
      rw [Workflow.add_fonts, add_font_of_present hl] at h
      simp at h
    | none =>
      rw [Workflow.add_fonts, add_font_of_fresh hl] at h
      rcases ih h with ⟨hq, hf, ha⟩
      exact ⟨hq, by simp [hf], ha⟩

theorem add_assets_abort {pre : List (String × Bytes)} :
    ∀ {w w' : Workflow} {f : String} {b : Bytes} {post : List (String × Bytes)},
      w.add_assets pre = (w', none) → (w'.dynamic_assets.lookup f).isSome →
        w.add_assets (pre ++ (f, b) :: post) = (w', some (.assetCollision f)) := by
  induction pre with
  | nil =>
    intro w w' f b post h hsome
    simp only [Workflow.add_assets] at h
    cases h
    rcases Option.isSome_iff_exists.mp hsome with ⟨old, hold⟩
    rw [List.nil_append, Workflow.add_assets, add_asset_of_present hold]
  | cons p rest ih =>
    intro w w' f b post h hsome
    obtain ⟨g, c⟩ := p
    cases hl : w.dynamic_assets.lookup g with
    | some old =>
      rw [Workflow.add_assets, add_asset_of_present hl] at h
      simp at h
    | none =>
      rw [Workflow.add_assets, add_asset_of_fresh hl] at h
      rw [List.cons_append, Workflow.add_assets, add_asset_of_fresh hl]
      exact ih h hsome

theorem add_fonts_abort {pre : List (String × Bytes)} :
    ∀ {w w' : Workflow} {f : String} {b : Bytes} {post : List (String × Bytes)},
      w.add_fonts pre = (w', none) → (w'.dynamic_fonts.lookup f).isSome →
        w.add_fonts (pre ++ (f, b) :: post) = (w', some (.fontCollision f)) := by
  induction pre with
  | nil =>
    intro w w' f b post h hsome
    simp only [Workflow.add_fonts] at h
    cases h
    rcases Option.isSome_iff_exists.mp hsome with ⟨old, hold⟩
    rw [List.nil_append, Workflow.add_fonts, add_font_of_present hold]
  | cons p rest ih =>
    intro w w' f b post h hsome
    obtain ⟨g, c⟩ := p
    cases hl : w.dynamic_fonts.lookup g with
    | some old =>
      rw [Workflow.add_fonts, add_font_of_present hl] at h
      simp at h
    | none =>
      rw [Workflow.add_fonts, add_font_of_fresh hl] at h
      rw [List.cons_append, Workflow.add_fonts, add_font_of_fresh hl]
      exact ih h hsome

/-! ## Global uniqueness of registered (name, version) pairs -/

theorem allQuills_distinct {reg : Registry} (h : reg.WF) :
    reg.allQuills.Pairwise (fun a b => ¬(a.name = b.name ∧ a.version = b.version)) := by
  unfold Registry.allQuills
  rw [List.pairwise_flatten]
  constructor
  · intro l hl
    rcases List.mem_map.mp hl with ⟨p, hp, rfl⟩
    refine ((h.2 p hp).2).imp ?_
    intro a b hlt hc
    exact Version.ne_of_lt hlt hc.2
  · have hkeys : reg.entries.Pairwise (fun p p' => p.1 ≠ p'.1) :=
      List.pairwise_map.mp h.1
    rw [List.pairwise_map]
    refine hkeys.imp_of_mem ?_
    intro p p' hp hp' hne
    intro x hx y hy hc
    have hxn := (h.2 p hp).1 x hx
    have hyn := (h.2 p' hp').1 y hy
    exact hne (hxn ▸ hyn ▸ hc.1)

/-! ## Claims -/

/-- C1: for every name with at least one registered quill, `get_quill`
with a bare-name selector returns exactly the registered quill under
that name carrying the highest registered version. -/
theorem get_quill_bare_highest (reg : Registry) (s n : String)
    (hwf : reg.WF) (hs : parseSelector s = some (Selector.bare n))
    (hne : reg.quillsUnder n ≠ []) :
    ∃ q, reg.get_quill s = some q ∧ q ∈ reg.quillsUnder n ∧ q.name = n ∧
      ∀ q' ∈ reg.quillsUnder n, Version.le q'.version q.version := by
  rcases head?_reverse_isSome hne with ⟨q, hq⟩
  have hmax := head?_reverse_max (quillsUnder_pairwise hwf n) hq
  refine ⟨q, ?_, hmax.1, quillsUnder_names hwf n q hmax.1, hmax.2⟩
  unfold Registry.get_quill
  rw [hs]
  simpa [Registry.resolve] using hq

/-- C1 witness: in the three-version taro registry, `get_quill "taro"`
returns a quill that dominates every registered taro version. -/
theorem get_quill_bare_highest_witness :
    ∃ q, regW.get_quill "taro" = some q ∧ q ∈ regW.quillsUnder "taro" ∧
      q.name = "taro" ∧
      ∀ q' ∈ regW.quillsUnder "taro", Version.le q'.version q.version :=
  get_quill_bare_highest regW "taro" "taro" (by decide) (by decide) (by decide)

/-- C2: an exact-version selector returns the registered quill with
exactly that (name, version) when one exists, and absent when none is
registered with that exact version — never a different version. -/
theorem get_quill_exact_match (reg : Registry) (s n : String) (v : Version)
    (hwf : reg.WF) (hs : parseSelector s = some (Selector.exact n v)) :
    (∀ q ∈ reg.quillsUnder n, q.version = v → reg.get_quill s = some q) ∧
    ((∀ q ∈ reg.quillsUnder n, q.version ≠ v) → reg.get_quill s = none) ∧
    (∀ q, reg.get_quill s = some q →
      q ∈ reg.quillsUnder n ∧ q.name = n ∧ q.version = v) := by
  have hres : reg.get_quill s =
      (reg.quillsUnder n).find? (fun q => decide (q.version = v)) := by
    unfold Registry.get_quill
    rw [hs]
    rfl
  refine ⟨?_, ?_, ?_⟩
  · intro q hq hv
    rw [hres]
    exact find?_version_eq (quillsUnder_pairwise hwf n) hq hv
  · intro hnone
    rw [hres]
    exact find?_version_none hnone
  · intro q hq
    rw [hres] at hq
    have hmem := List.mem_of_find?_eq_some hq
    have hv : q.version = v := by simpa using List.find?_some hq
    exact ⟨hmem, quillsUnder_names hwf n q hmem, hv⟩

/-- C2 witness: `get_quill "taro@1.1.0"` behaves as an exact probe on
the three-version taro registry. -/
theorem get_quill_exact_match_witness :
    (∀ q ∈ regW.quillsUnder "taro", q.version = ⟨1, 1, 0⟩ →
      regW.get_quill "taro@1.1.0" = some q) ∧
    ((∀ q ∈ regW.quillsUnder "taro", q.version ≠ ⟨1, 1, 0⟩) →
      regW.get_quill "taro@1.1.0" = none) ∧
    (∀ q, regW.get_quill "taro@1.1.0" = some q →
      q ∈ regW.quillsUnder "taro" ∧ q.name = "taro" ∧ q.version = ⟨1, 1, 0⟩) :=
  get_quill_exact_match regW "taro@1.1.0" "taro" ⟨1, 1, 0⟩ (by decide) (by decide)

/-- C3: a major-only selector returns the highest registered version
whose major component equals the requested major, and absent when no
registered version has that major. -/
theorem get_quill_major_highest (reg : Registry) (s n : String) (m : Nat)
    (hwf : reg.WF) (hs : parseSelector s = some (Selector.major n m)) :
    ((∃ q ∈ reg.quillsUnder n, q.version.major = m) →
      ∃ q, reg.get_quill s = some q ∧ q ∈ reg.quillsUnder n ∧ q.name = n ∧
        q.version.major = m ∧
        ∀ q' ∈ reg.quillsUnder n, q'.version.major = m →
          Version.le q'.version q.version) ∧
    ((∀ q ∈ reg.quillsUnder n, q.version.major ≠ m) → reg.get_quill s = none) := by
  have hres : reg.get_quill s =
      (reg.quillsUnder n).reverse.find? (fun q => decide (q.version.major = m)) := by
    unfold Registry.get_quill
    rw [hs]
    rfl
  constructor
  · rintro ⟨x, hx, hxm⟩
    rcases find?_reverse_isSome (p := fun q => decide (q.version.major = m)) hx
      (by simpa using hxm) with ⟨q, hq⟩
    rcases find?_reverse_max (quillsUnder_pairwise hwf n) hq with ⟨hmem, hpq, hmax⟩
    refine ⟨q, by rw [hres]; exact hq, hmem, quillsUnder_names hwf n q hmem,
      by simpa using hpq, ?_⟩
    intro q' hq' hm'
    exact hmax q' hq' (by simpa using hm')
  · intro hnone
    rw [hres]
    refine List.find?_eq_none.mpr ?_
    intro x hx
    simpa using hnone x (List.mem_reverse.mp hx)

/-- C3 witness: `get_quill "taro@1"` returns the highest major-1 taro
version in the three-version registry. -/
theorem get_quill_major_highest_witness :
    ((∃ q ∈ regW.quillsUnder "taro", q.version.major = 1) →
      ∃ q, regW.get_quill "taro@1" = some q ∧ q ∈ regW.quillsUnder "taro" ∧
        q.name = "taro" ∧ q.version.major = 1 ∧
        ∀ q' ∈ regW.quillsUnder "taro", q'.version.major = 1 →
          Version.le q'.version q.version) ∧
    ((∀ q ∈ regW.quillsUnder "taro", q.version.major ≠ 1) →
      regW.get_quill "taro@1" = none) :=
  get_quill_major_highest regW "taro@1" "taro" 1 (by decide) (by decide)

/-- C4: adding an asset (font) whose filename is already in the dynamic
overlay raises the collision error and leaves the overlay unchanged:
the batch form returns the workflow unmodified, so the prior entry's
bytes are retained and nothing is added, removed or overwritten. -/
theorem add_collision_rejects (w : Workflow) (f : String) (b old : Bytes) :
    (w.dynamic_assets.lookup f = some old →
      w.add_asset f b = .error (.assetCollision f) ∧
        w.add_assets [(f, b)] = (w, some (.assetCollision f))) ∧
    (w.dynamic_fonts.lookup f = some old →
      w.add_font f b = .error (.fontCollision f) ∧
        w.add_fonts [(f, b)] = (w, some (.fontCollision f))) := by
  constructor
  · intro h
    refine ⟨add_asset_of_present h, ?_⟩
    rw [Workflow.add_assets, add_asset_of_present h]
  · intro h
    refine ⟨add_font_of_present h, ?_⟩
    rw [Workflow.add_fonts, add_font_of_present h]

/-- C4 witness: on the fixture workflow, re-adding `logo.png` and
`mono.ttf` collides and returns the workflow unchanged. -/
theorem add_collision_rejects_witness :
    (wW.dynamic_assets.lookup "logo.png" = some [9] →
      wW.add_asset "logo.png" [0] = .error (.assetCollision "logo.png") ∧
        wW.add_assets [("logo.png", [0])] = (wW, some (.assetCollision "logo.png"))) ∧
    (wW.dynamic_fonts.lookup "logo.png" = some [9] →
      wW.add_font "logo.png" [0] = .error (.fontCollision "logo.png") ∧
        wW.add_fonts [("logo.png", [0])] = (wW, some (.fontCollision "logo.png"))) :=
  add_collision_rejects wW "logo.png" [0] [9]

/-- C5: every successful render result carries the requested output
format (even with zero artifacts) and each artifact's MIME type is the
table entry for that format: `application/pdf` for PDF, `image/svg+xml`
for SVG. -/
theorem render_output_format_and_mime (backend : RenderBackend) (w : Workflow)
    (doc : ParsedDocument) (fmt : OutputFormat) (res : RenderResult)
    (h : w.render backend doc fmt = .ok res) :
    res.output_format = fmt ∧
      (∀ a ∈ res.artifacts, a.mime_type = mimeFor fmt) ∧
      mimeFor .PDF = "application/pdf" ∧ mimeFor .SVG = "image/svg+xml" := by
  unfold Workflow.render at h
  cases hb : backend w.quill.template_source w.effective_assets w.effective_fonts doc fmt with
  | error msg => rw [hb] at h; simp at h
  | ok bufs =>
    rw [hb] at h
    simp only [Except.ok.injEq] at h
    subst h
    refine ⟨rfl, ?_, rfl, rfl⟩
    intro a ha
    rcases List.mem_map.mp ha with ⟨buf, _, rfl⟩
    rfl

/-- C5 witness: a zero-artifact PDF render still reports PDF, and a
two-artifact SVG render tags every artifact `image/svg+xml`. -/
theorem render_output_format_and_mime_witness :
    ((RenderResult.mk [] .PDF).output_format = .PDF ∧
      (∀ a ∈ (RenderResult.mk [] .PDF).artifacts, a.mime_type = mimeFor .PDF) ∧
      mimeFor .PDF = "application/pdf" ∧ mimeFor .SVG = "image/svg+xml") ∧
    ((RenderResult.mk [⟨[1, 2], "image/svg+xml"⟩, ⟨[3], "image/svg+xml"⟩] .SVG).output_format = .SVG ∧
      (∀ a ∈ (RenderResult.mk [⟨[1, 2], "image/svg+xml"⟩, ⟨[3], "image/svg+xml"⟩] .SVG).artifacts,
        a.mime_type = mimeFor .SVG) ∧
      mimeFor .PDF = "application/pdf" ∧ mimeFor .SVG = "image/svg+xml") :=
  ⟨render_output_format_and_mime backendW wW docW .PDF ⟨[], .PDF⟩ rfl,
    render_output_format_and_mime backendW2 wW docW .SVG
      ⟨[⟨[1, 2], "image/svg+xml"⟩, ⟨[3], "image/svg+xml"⟩], .SVG⟩ rfl⟩

/-- C6: batch adds apply `add_asset`/`add_font` in list order; a
collision-free batch appends all pairs (names then list in insertion
order), while the first colliding filename aborts the batch with the
prior pairs applied, no later pair applied, and the error naming the
colliding filename. -/
theorem add_batch_order_and_abort :
    (∀ (w w' : Workflow) (ps : List (String × Bytes)), w.add_assets ps = (w', none) →
      w'.dynamic_assets = w.dynamic_assets ++ ps ∧
        w'.dynamic_asset_names = w.dynamic_asset_names ++ ps.map Prod.fst) ∧
    (∀ (w w' : Workflow) (pre post : List (String × Bytes)) (f : String) (b : Bytes),
      w.add_assets pre = (w', none) → (w'.dynamic_assets.lookup f).isSome →
        w.add_assets (pre ++ (f, b) :: post) = (w', some (QErr.assetCollision f))) ∧
    (∀ (w w' : Workflow) (ps : List (String × Bytes)), w.add_fonts ps = (w', none) →
      w'.dynamic_fonts = w.dynamic_fonts ++ ps ∧
        w'.dynamic_font_names = w.dynamic_font_names ++ ps.map Prod.fst) ∧
    (∀ (w w' : Workflow) (pre post : List (String × Bytes)) (f : String) (b : Bytes),
      w.add_fonts pre = (w', none) → (w'.dynamic_fonts.lookup f).isSome →
        w.add_fonts (pre ++ (f, b) :: post) = (w', some (QErr.fontCollision f))) := by
  refine ⟨?_, ?_, ?_, ?_⟩
  · intro w w' ps h
    have hsh := add_assets_ok_shape h
    refine ⟨hsh.2.1, ?_⟩
    unfold Workflow.dynamic_asset_names
    rw [hsh.2.1, List.map_append]
  · intro w w' pre post f b h hsome
    exact add_assets_abort h hsome
  · intro w w' ps h
    have hsh := add_fonts_ok_shape h
    refine ⟨hsh.2.1, ?_⟩
    unfold Workflow.dynamic_font_names
    rw [hsh.2.1, List.map_append]
  · intro w w' pre post f b h hsome
    exact add_fonts_abort h hsome

/-- C6 witness: a fresh taro workflow, batch-adding `a.png` then a
duplicate `a.png`, keeps the first pair, drops the rest, and reports
the colliding filename; the collision-free prefix lists names in
insertion order. -/
theorem add_batch_order_and_abort_witness :
    (Workflow.mk taroQ1 [] []).add_assets
        ([("a.png", [1])] ++ ("a.png", [2]) :: [("b.png", [3])]) =
      (Workflow.mk taroQ1 [("a.png", [1])] [], some (QErr.assetCollision "a.png")) ∧
    (Workflow.mk taroQ1 [("a.png", [1])] []).dynamic_asset_names = [] ++ [("a.png", [1])].map Prod.fst :=
  ⟨add_batch_order_and_abort.2.1 (Workflow.mk taroQ1 [] [])
      (Workflow.mk taroQ1 [("a.png", [1])] []) [("a.png", [1])] [("b.png", [3])]
      "a.png" [2] (by decide) (by decide),
    (add_batch_order_and_abort.1 (Workflow.mk taroQ1 [] [])
      (Workflow.mk taroQ1 [("a.png", [1])] []) [("a.png", [1])] (by decide)).2⟩

/-- C7: `get_quill` signals every failed resolution as the value
`none`, never an error: unknown names, registered names with no
satisfying version, and the two-component selector `taro@99.99` all
yield `none`; `workflow` on a selector resolving to absent fails with
the not-found error. -/
theorem get_quill_absent_vs_workflow_error :
    (∀ (reg : Registry) (s n : String), parseSelector s = some (Selector.bare n) →
      reg.quillsUnder n = [] → reg.get_quill s = none) ∧
    (∀ (reg : Registry) (s n : String) (v : Version),
      parseSelector s = some (Selector.exact n v) →
      (∀ q ∈ reg.quillsUnder n, q.version ≠ v) → reg.get_quill s = none) ∧
    (∀ (reg : Registry) (s n : String) (m : Nat),
      parseSelector s = some (Selector.major n m) →
      (∀ q ∈ reg.quillsUnder n, q.version.major ≠ m) → reg.get_quill s = none) ∧
    (∀ reg : Registry, reg.get_quill "taro@99.99" = none) ∧
    (∀ (reg : Registry) (s : String), reg.get_quill s = none →
      reg.workflow s = .error (.notFound s)) := by
  refine ⟨?_, ?_, ?_, ?_, ?_⟩
  · intro reg s n hs hempty
    unfold Registry.get_quill
    rw [hs]
    show (reg.quillsUnder n).reverse.head? = none
    rw [hempty]
    rfl
  · intro reg s n v hs hnone
    unfold Registry.get_quill
    rw [hs]
    exact find?_version_none hnone
  · intro reg s n m hs hnone
    unfold Registry.get_quill
    rw [hs]
    show (reg.quillsUnder n).reverse.find? _ = none
    refine List.find?_eq_none.mpr ?_
    intro x hx
    simpa using hnone x (List.mem_reverse.mp hx)
  · intro reg
    have hp : parseSelector "taro@99.99" = none := by decide
    unfold Registry.get_quill
    rw [hp]
  · intro reg s h
    unfold Registry.workflow
    rw [h]

/-- C7 witness: on the three-version taro registry, `nonexistent`,
`taro@9.9.9` and `taro@99.99` all resolve to `none`, and building a
workflow from `nonexistent` fails with the not-found error. -/
theorem get_quill_absent_vs_workflow_error_witness :
    regW.get_quill "nonexistent" = none ∧
    regW.get_quill "taro@9.9.9" = none ∧
    regW.get_quill "taro@99.99" = none ∧
    regW.workflow "nonexistent" = .error (.notFound "nonexistent") :=
  ⟨get_quill_absent_vs_workflow_error.1 regW "nonexistent" "nonexistent"
      (by decide) (by decide),
    get_quill_absent_vs_workflow_error.2.1 regW "taro@9.9.9" "taro" ⟨9, 9, 9⟩
      (by decide) (by decide),
    get_quill_absent_vs_workflow_error.2.2.2.1 regW,
    get_quill_absent_vs_workflow_error.2.2.2.2 regW "nonexistent"
      (get_quill_absent_vs_workflow_error.1 regW "nonexistent" "nonexistent"
        (by decide) (by decide))⟩

/-- C8: the effective resource set a render hands to the backend is the
union of the quill's static map and the workflow's dynamic overlay,
with the dynamic entry's bytes taking precedence on a shared filename;
same rule for fonts; and `render` delegates exactly these merged sets. -/
theorem render_merges_static_dynamic (w : Workflow) (f : String) :
    w.effective_assets.lookup f =
      (w.dynamic_assets.lookup f).or (w.quill.static_assets.lookup f) ∧
    w.effective_fonts.lookup f =
      (w.dynamic_fonts.lookup f).or (w.quill.static_fonts.lookup f) ∧
    ((w.effective_assets.lookup f).isSome ↔
      (w.quill.static_assets.lookup f).isSome ∨ (w.dynamic_assets.lookup f).isSome) ∧
    ((w.effective_fonts.lookup f).isSome ↔
      (w.quill.static_fonts.lookup f).isSome ∨ (w.dynamic_fonts.lookup f).isSome) ∧
    (∀ b, w.dynamic_assets.lookup f = some b → w.effective_assets.lookup f = some b) ∧
    (∀ b, w.dynamic_fonts.lookup f = some b → w.effective_fonts.lookup f = some b) ∧
    (∀ (backend : RenderBackend) (doc : ParsedDocument) (fmt : OutputFormat),
      w.render backend doc fmt =
        match backend w.quill.template_source w.effective_assets w.effective_fonts doc fmt with
        | .error msg => .error (.backendRenderError msg)
        | .ok bufs =>
          .ok ⟨bufs.map (fun b => ⟨b, mimeFor fmt⟩), fmt⟩) := by
  refine ⟨effective_assets_lookup w f, effective_fonts_lookup w f, ?_, ?_, ?_, ?_, ?_⟩
  · rw [effective_assets_lookup]
    cases w.dynamic_assets.lookup f <;> cases w.quill.static_assets.lookup f <;> simp
  · rw [effective_fonts_lookup]
    cases w.dynamic_fonts.lookup f <;> cases w.quill.static_fonts.lookup f <;> simp
  · intro b hb
    rw [effective_assets_lookup, hb]
    rfl
  · intro b hb
    rw [effective_fonts_lookup, hb]
    rfl
  · intro backend doc fmt
    rfl

/-- C8 witness: on the fixture workflow, the dynamic `logo.png` bytes
shadow the static ones in the effective asset set. -/
theorem render_merges_static_dynamic_witness :
    wW.effective_assets.lookup "logo.png" = some [9] :=
  (render_merges_static_dynamic wW "logo.png").2.2.2.2.1 [9] (by decide)

/-- C9: registration keeps the registry free of duplicate
(name, version) pairs: the empty registry is well-formed, registration
preserves well-formedness, the registered quill is present afterwards,
any quill under its name with its version is the new quill itself
(replace, not duplicate), other names are untouched, and all registered
quills are pairwise distinct on (name, version). -/
theorem register_replaces_and_unique :
    Registry.empty.WF ∧
    (∀ (reg : Registry) (q : Quill), reg.WF → (reg.register_quill q).WF) ∧
    (∀ (reg : Registry) (q : Quill), q ∈ (reg.register_quill q).quillsUnder q.name) ∧
    (∀ (reg : Registry) (q : Quill), reg.WF →
      ∀ q' ∈ (reg.register_quill q).quillsUnder q.name, q'.version = q.version → q' = q) ∧
    (∀ (reg : Registry) (q : Quill) (n : String), n ≠ q.name →
      (reg.register_quill q).quillsUnder n = reg.quillsUnder n) ∧
    (∀ reg : Registry, reg.WF →
      reg.allQuills.Pairwise (fun a b => ¬(a.name = b.name ∧ a.version = b.version))) := by
  refine ⟨Registry.empty_WF, Registry.register_WF, ?_, ?_, quillsUnder_register_other, ?_⟩
  · intro reg q
    rw [quillsUnder_register_self]
    exact self_mem_insertVersion q _
  · intro reg q hwf q' hq' hv
    rw [quillsUnder_register_self] at hq'
    rcases mem_insertVersion_version (quillsUnder_pairwise hwf q.name) hq' with h | ⟨_, hne⟩
    · exact h
    · exact absurd hv hne
  · intro reg hwf
    exact allQuills_distinct hwf

/-- C9 witness: re-registering taro 1.1.0 with new content replaces the
prior 1.1.0 entry in the three-version registry and keeps it
well-formed. -/
theorem register_replaces_and_unique_witness :
    Registry.empty.WF ∧
    (regW.register_quill (Quill.mk "taro" ⟨1, 1, 0⟩ "tmplNew" [] [])).WF ∧
    Quill.mk "taro" ⟨1, 1, 0⟩ "tmplNew" [] [] ∈
      (regW.register_quill (Quill.mk "taro" ⟨1, 1, 0⟩ "tmplNew" [] [])).quillsUnder "taro" ∧
    (∀ q' ∈ (regW.register_quill (Quill.mk "taro" ⟨1, 1, 0⟩ "tmplNew" [] [])).quillsUnder "taro",
      q'.version = (⟨1, 1, 0⟩ : Version) → q' = Quill.mk "taro" ⟨1, 1, 0⟩ "tmplNew" [] []) ∧
    regW.allQuills.Pairwise (fun a b => ¬(a.name = b.name ∧ a.version = b.version)) :=
  ⟨register_replaces_and_unique.1,
    register_replaces_and_unique.2.1 regW _ (by decide),
    register_replaces_and_unique.2.2.1 regW _,
    register_replaces_and_unique.2.2.2.1 regW _ (by decide),
    register_replaces_and_unique.2.2.2.2.2 regW (by decide)⟩

/-- C10: the extra constructor `workflow_from_quill_name`, given a bare
registered name, builds the same workflow as `workflow`: bound to the
same resolved quill, with empty dynamic overlays and identical render
behavior. -/
theorem workflow_from_quill_name_equiv (reg : Registry) (n : String)
    (hs : parseSelector n = some (Selector.bare n)) :
    reg.workflow_from_quill_name n = reg.workflow n ∧
    (∀ w, reg.workflow_from_quill_name n = .ok w →
      w.dynamic_assets = [] ∧ w.dynamic_fonts = [] ∧ reg.get_quill n = some w.quill) ∧
    (∀ w w', reg.workflow_from_quill_name n = .ok w → reg.workflow n = .ok w' →
      ∀ (backend : RenderBackend) (doc : ParsedDocument) (fmt : OutputFormat),
        w.render backend doc fmt = w'.render backend doc fmt) := by
  have hget : reg.get_quill n = (reg.quillsUnder n).reverse.head? := by
    unfold Registry.get_quill
    rw [hs]
    rfl
  have heq : reg.workflow_from_quill_name n = reg.workflow n := by
    unfold Registry.workflow Registry.workflow_from_quill_name
    rw [hget]
  refine ⟨heq, ?_, ?_⟩
  · intro w hw
    unfold Registry.workflow_from_quill_name at hw
    cases hh : (reg.quillsUnder n).reverse.head? with
    | none => rw [hh] at hw; simp at hw
    | some q =>
      rw [hh] at hw
      simp only [Except.ok.injEq] at hw
      subst hw
      exact ⟨rfl, rfl, by rw [hget, hh]⟩
  · intro w w' hw hw' backend doc fmt
    rw [heq, hw'] at hw
    simp only [Except.ok.injEq] at hw
    rw [hw]

/-- C10 witness: on the three-version taro registry,
`workflow_from_quill_name "taro"` agrees with `workflow "taro"`. -/
theorem workflow_from_quill_name_equiv_witness :
    regW.workflow_from_quill_name "taro" = regW.workflow "taro" ∧
    (∀ w, regW.workflow_from_quill_name "taro" = .ok w →
      w.dynamic_assets = [] ∧ w.dynamic_fonts = [] ∧
        regW.get_quill "taro" = some w.quill) ∧
    (∀ w w', regW.workflow_from_quill_name "taro" = .ok w →
      regW.workflow "taro" = .ok w' →
      ∀ (backend : RenderBackend) (doc : ParsedDocument) (fmt : OutputFormat),
        w.render backend doc fmt = w'.render backend doc fmt) :=
  workflow_from_quill_name_equiv regW "taro" (by decide)
